import Mathlib

/-!
Verification of the Smart Task Prioritizer (src/python/src/prioritize_tasks.py).

Shallow embedding conventions:
* a Python `datetime` is modelled as a point on a linear time axis (`Int`);
  the standard-library ISO parser `datetime.fromisoformat` is an external
  collaborator and is passed in as an explicit function parameter `fromIso`;
* a Python exception becomes an `Option`/`Except` error value;
* the Python `dict` built by `normalize_tasks` becomes an association list
  kept in insertion order, with insertion overwriting in place like a dict;
* `estimated_hours` is only ever compared, never computed with, so a linearly
  ordered numeric carrier (`Int`) models it faithfully.
-/

namespace Prioritizer

/-- A point on the linear time axis (models a Python `datetime` value). -/
abbrev DateTime := Int

/-- The deadline field of an input record: either an already parsed time
value or an ISO-8601 text (models `Union[datetime, str]`). -/
inductive DeadlineInput where
  | dt (d : DateTime)
  | str (s : String)
deriving DecidableEq, Repr

/-- Input task record (models `TaskDict`). -/
structure TaskDict where
  id : String
  name : String
  deadline : DeadlineInput
  priority : Int
  dependencies : List String
  estimated_hours : Int
deriving DecidableEq, Repr

/-- Normalized task record (models the `Task` dataclass: deadline parsed). -/
structure Task where
  id : String
  name : String
  deadline : DateTime
  priority : Int
  dependencies : List String
  estimated_hours : Int
deriving DecidableEq, Repr

/-- The typed failures the module raises. -/
inductive PError where
  | circular (msg : String)
  | invalidDependency (msg : String)
  | invalidPriority (msg : String)
  | valueError (msg : String)
deriving DecidableEq, Repr

def PRIORITY_MIN : Int := 1

def PRIORITY_MAX : Int := 5

/-- Models `parse_deadline`: a `datetime` is returned unchanged; a string is
fed to the ISO parser (after replacing a trailing `Z` when it contains `T`),
and a parser failure is re-raised as a `ValueError` naming the string.
`fromIso` is the external `datetime.fromisoformat` collaborator. -/
def parse_deadline (fromIso : String → Option DateTime) :
    DeadlineInput → Except String DateTime
  | .dt d => .ok d
  | .str s =>
    match (if s.toList.contains 'T' then fromIso (s.replace "Z" "+00:00")
        else fromIso s) with
    | some d => .ok d
    | none => .error ("Invalid date format: " ++ s)

def priorityMsg (t : Task) : String :=
  "Task \"" ++ t.id ++ "\" has invalid priority " ++ toString t.priority ++
    ". Priority must be between " ++ toString PRIORITY_MIN ++ " and " ++
    toString PRIORITY_MAX ++ "."

def depMsg (t : Task) (d : String) : String :=
  "Task \"" ++ t.id ++ "\" has dependency on non-existent task \"" ++ d ++ "\"."

def hoursMsg (t : Task) : String :=
  "Task \"" ++ t.id ++ "\" has negative estimated hours."

/-- Models `validate_task`: priority range first, then the first dependency
not present in the id set, then negative estimated hours; the first failing
check raises. -/
def validate_task (t : Task) (all_task_ids : List String) : Option PError :=
  if t.priority < PRIORITY_MIN ∨ t.priority > PRIORITY_MAX then
    some (.invalidPriority (priorityMsg t))
  else
    match t.dependencies.find? (fun d => !(all_task_ids.contains d)) with
    | some d => some (.invalidDependency (depMsg t d))
    | none =>
      if t.estimated_hours < 0 then some (.valueError (hoursMsg t)) else none

example :
    validate_task
      { id := "1", name := "n", deadline := 0, priority := 0,
        dependencies := [], estimated_hours := 2 } ["1"] =
    some (.invalidPriority
      "Task \"1\" has invalid priority 0. Priority must be between 1 and 5.") := by
  decide
/-- The association-list image of the Python dict mapping task id to Task. -/
abbrev TaskMap := List (String × Task)

/-- Dependencies of a node: `tasks.get(task_id)` yields the task when the id
is a key, and a missing id contributes no outgoing edges. -/
def depsOf (tasks : TaskMap) (id : String) : List String :=
  match tasks.lookup id with
  | some t => t.dependencies
  | none => []

/-- Result of one depth-first exploration: a cycle was hit, the fuel ran
out, or exploration finished returning the enlarged visited set. -/
inductive Dfs where
  | cyc : Dfs
  | out : Dfs
  | ok : List String → Dfs
deriving DecidableEq, Repr

/-- Sequential exploration of a dependency list, threading the visited set
and aborting at the first child that reports a cycle (models the `for` loop
inside `has_cycle`). -/
def foldCycle (f : List String → String → Dfs) : List String → List String → Dfs
  | visited, [] => .ok visited
  | visited, d :: ds =>
    match f visited d with
    | .ok v => foldCycle f v ds
    | r => r

/-- Models the inner `has_cycle` of `detect_circular_dependencies`: a node on
the recursion stack signals a cycle, an already visited node is never
re-explored, and otherwise the node is marked visited, pushed on the stack
and its dependencies are explored in order. Fuel bounds the recursion
depth; it is chosen large enough below to never run out. -/
def hasCycle (tasks : TaskMap) : Nat → List String → List String → String → Dfs
  | 0, _, _, _ => .out
  | fuel + 1, visited, stack, id =>
    if id ∈ stack then .cyc
    else if id ∈ visited then .ok visited
    else foldCycle (fun v d => hasCycle tasks fuel v (id :: stack) d)
      (id :: visited) (depsOf tasks id)

/-- Result of the top-level loop of `detect_circular_dependencies`. -/
inductive DetectRes where
  | ok : List String → DetectRes
  | found : String → DetectRes
  | out : DetectRes
deriving DecidableEq, Repr

/-- Models the top-level loop `for task_id in tasks.keys()`: start a
depth-first exploration from every not-yet-visited key, in key order, and
report the first start node whose exploration hits a cycle. -/
def detectLoop (tasks : TaskMap) (fuel : Nat) :
    List String → List String → DetectRes
  | visited, [] => .ok visited
  | visited, k :: ks =>
    if k ∈ visited then detectLoop tasks fuel visited ks
    else
      match hasCycle tasks fuel visited [] k with
      | .ok v => detectLoop tasks fuel v ks
      | .cyc => .found k
      | .out => .out

/-- Every id the traversal can ever touch: the keys and every id occurring
in some dependency list. -/
def allIds (tasks : TaskMap) : List String :=
  tasks.map (fun p => p.1) ++ (tasks.map (fun p => p.2.dependencies)).flatten

/-- Models `detect_circular_dependencies`: `some k` means the Python code
raises `CircularDependencyError` naming the top-level key `k`, `none` means
it returns normally. The fuel is one more than the number of reachable ids,
which is proved sufficient below. -/
def detect_circular_dependencies (tasks : TaskMap) : Option String :=
  match detectLoop tasks ((allIds tasks).length + 1) [] (tasks.map (fun p => p.1)) with
  | .found k => some k
  | _ => none

def mkTask (id name : String) (deadline : DateTime) (priority : Int)
    (dependencies : List String) (estimated_hours : Int) : Task :=
  { id := id, name := name, deadline := deadline, priority := priority,
    dependencies := dependencies, estimated_hours := estimated_hours }

/-- A two-key map where the first task leads into, but does not lie on, a
self-loop of the second. -/
def exLeadsIn : TaskMap :=
  [("A", mkTask "A" "a" 0 3 ["B"] 1), ("B", mkTask "B" "b" 0 3 ["B"] 1)]

example : detect_circular_dependencies exLeadsIn = some "A" := by decide

example : detect_circular_dependencies [("A", mkTask "A" "a" 0 3 ["X"] 1)] = none := by
  decide

example : detect_circular_dependencies
    [("A", mkTask "A" "a" 0 3 ["B"] 1), ("B", mkTask "B" "b" 0 3 [] 1)] = none := by
  decide

example : detect_circular_dependencies
    [("A", mkTask "A" "a" 0 3 ["B"] 1), ("B", mkTask "B" "b" 0 3 ["C"] 1),
     ("C", mkTask "C" "c" 0 3 ["A"] 1)] = some "A" := by decide

/-- The dependency graph: an edge from a task to each id it lists as a
dependency. Ids absent from the map have no outgoing edges, exactly as in
the traversal (`tasks.get` returning `None`). -/
def depEdge (tasks : TaskMap) (a b : String) : Prop :=
  ∃ t, tasks.lookup a = some t ∧ b ∈ t.dependencies

theorem lookup_mem {tasks : TaskMap} {a : String} {t : Task}
    (h : tasks.lookup a = some t) : (a, t) ∈ tasks := by
  induction tasks with
  | nil => simp at h
  | cons p ps ih =>
    obtain ⟨k, v⟩ := p
    rw [List.lookup_cons] at h
    cases hak : (a == k) with
    | true =>
      rw [hak] at h
      injection h with hvt
      have hk : a = k := eq_of_beq hak
      subst hk
      subst hvt
      exact List.mem_cons_self _ _
    | false =>
      rw [hak] at h
      exact List.mem_cons_of_mem _ (ih h)

theorem lookup_mem_keys {tasks : TaskMap} {a : String} {t : Task}
    (h : tasks.lookup a = some t) : a ∈ tasks.map (fun p => p.1) := by
  exact List.mem_map.mpr ⟨(a, t), lookup_mem h, rfl⟩

theorem mem_depsOf {tasks : TaskMap} {a b : String} :
    b ∈ depsOf tasks a ↔ depEdge tasks a b := by
  unfold depsOf depEdge
  cases h : tasks.lookup a with
  | none => simp
  | some t => simp

theorem depsOf_subset_allIds {tasks : TaskMap} {i d : String}
    (h : d ∈ depsOf tasks i) : d ∈ allIds tasks := by
  unfold depsOf at h
  cases hl : tasks.lookup i with
  | none => rw [hl] at h; cases h
  | some t =>
    rw [hl] at h
    have hm : (i, t) ∈ tasks := lookup_mem hl
    unfold allIds
    refine List.mem_append_right _ ?_
    refine List.mem_flatten.mpr ⟨t.dependencies, ?_, h⟩
    exact List.mem_map.mpr ⟨(i, t), hm, rfl⟩

theorem keys_subset_allIds {tasks : TaskMap} {k : String}
    (h : k ∈ tasks.map (fun p => p.1)) : k ∈ allIds tasks :=
  List.mem_append_left _ h

theorem cycle_node_is_key {tasks : TaskMap} {a : String}
    (h : Relation.TransGen (depEdge tasks) a a) :
    a ∈ tasks.map (fun p => p.1) := by
  rcases (Relation.TransGen.head'_iff).mp h with ⟨b, hab, _⟩
  rcases hab with ⟨t, hl, _⟩
  exact lookup_mem_keys hl

/-- The recursion stack is a dependency path: each entry was pushed while
exploring a dependency of the entry below it. -/
def StackInv (tasks : TaskMap) : List String → Prop
  | [] => True
  | [_] => True
  | x :: y :: rest => depEdge tasks y x ∧ StackInv tasks (y :: rest)

theorem stackInv_reach_head {tasks : TaskMap} {a h : String} {t : List String}
    (hs : StackInv tasks (h :: t)) (ha : a ∈ h :: t) :
    Relation.ReflTransGen (depEdge tasks) a h := by
  induction t generalizing h with
  | nil =>
    rcases List.mem_cons.mp ha with rfl | ha
    · exact Relation.ReflTransGen.refl
    · cases ha
  | cons y rest ih =>
    rcases hs with ⟨hedge, hrest⟩
    rcases List.mem_cons.mp ha with rfl | ha
    · exact Relation.ReflTransGen.refl
    · exact (ih hrest ha).tail hedge

theorem getLastD_default_irrel {α : Type} (y c d : α) (rest : List α) :
    (y :: rest).getLastD c = (y :: rest).getLastD d := by
  cases rest with
  | nil => rfl
  | cons z zs => rw [List.getLastD_cons c y, List.getLastD_cons d y]

theorem stackInv_last_reach {tasks : TaskMap} {a h d : String} {t : List String}
    (hs : StackInv tasks (h :: t)) (ha : a ∈ h :: t) :
    Relation.ReflTransGen (depEdge tasks) ((h :: t).getLastD d) a := by
  induction t generalizing a h d with
  | nil =>
    rcases List.mem_cons.mp ha with rfl | ha
    · exact Relation.ReflTransGen.refl
    · cases ha
  | cons y rest ih =>
    rcases hs with ⟨hedge, hrest⟩
    rw [List.getLastD_cons, getLastD_default_irrel y h d rest]
    rcases List.mem_cons.mp ha with rfl | ha
    · exact (ih hrest (List.mem_cons_self y rest)).tail hedge
    · exact ih hrest ha

/-- Every fully processed node (visited but no longer on the recursion
stack) cannot reach any cycle of the dependency graph. -/
def Safe (tasks : TaskMap) (visited stack : List String) : Prop :=
  ∀ x ∈ visited, x ∉ stack →
    ∀ c, Relation.ReflTransGen (depEdge tasks) x c →
      ¬ Relation.TransGen (depEdge tasks) c c

theorem foldCycle_ok (tasks : TaskMap) (A stck : List String)
    (f : List String → String → Dfs)
    (hf : ∀ v d w, f v d = .ok w →
      d ∈ w ∧ v ⊆ w ∧ d ∉ stck ∧ (∀ x ∈ w, x ∈ v ∨ x = d ∨ x ∈ A) ∧
        (Safe tasks v stck → Safe tasks w stck)) :
    ∀ ds v w, (∀ d ∈ ds, d ∈ A) → foldCycle f v ds = .ok w →
      v ⊆ w ∧ (∀ d ∈ ds, d ∈ w ∧ d ∉ stck) ∧ (∀ x ∈ w, x ∈ v ∨ x ∈ A) ∧
        (Safe tasks v stck → Safe tasks w stck) := by
  intro ds
  induction ds with
  | nil =>
    intro v w _ hw
    rw [foldCycle] at hw
    injection hw with hvw
    subst hvw
    refine ⟨fun x hx => hx, ?_, fun x hx => Or.inl hx, fun hS => hS⟩
    intro d hd
    cases hd
  | cons d ds ih =>
    intro v w hA hw
    rw [foldCycle] at hw
    cases hfd : f v d with
    | ok v1 =>
      rw [hfd] at hw
      obtain ⟨hd1, hsub1, hdst, hbound1, hsafe1⟩ := hf v d v1 hfd
      obtain ⟨hsub2, hds2, hbound2, hsafe2⟩ :=
        ih v1 w (fun x hx => hA x (List.mem_cons_of_mem _ hx)) hw
      refine ⟨fun x hx => hsub2 (hsub1 hx), ?_, ?_,
        fun hS => hsafe2 (hsafe1 hS)⟩
      · intro e he
        rcases List.mem_cons.mp he with rfl | he
        · exact ⟨hsub2 hd1, hdst⟩
        · exact hds2 e he
      · intro x hx
        rcases hbound2 x hx with hx1 | hxA
        · rcases hbound1 x hx1 with hxv | rfl | hxA
          · exact Or.inl hxv
          · exact Or.inr (hA x (List.mem_cons_self x ds))
          · exact Or.inr hxA
        · exact Or.inr hxA
    | cyc => rw [hfd] at hw; cases hw
    | out => rw [hfd] at hw; cases hw

theorem hasCycle_ok {tasks : TaskMap} :
    ∀ (fuel : Nat) (v s : List String) (i : String) (w : List String),
      hasCycle tasks fuel v s i = .ok w →
      i ∈ w ∧ v ⊆ w ∧ i ∉ s ∧ (∀ x ∈ w, x ∈ v ∨ x = i ∨ x ∈ allIds tasks) ∧
        (Safe tasks v s → Safe tasks w s) := by
  intro fuel
  induction fuel with
  | zero => intro v s i w h; rw [hasCycle] at h; cases h
  | succ fuel ih =>
    intro v s i w h
    rw [hasCycle] at h
    by_cases his : i ∈ s
    · rw [if_pos his] at h; cases h
    · rw [if_neg his] at h
      by_cases hiv : i ∈ v
      · rw [if_pos hiv] at h
        injection h with hvw
        subst hvw
        exact ⟨hiv, fun x hx => hx, his, fun x hx => Or.inl hx, fun hS => hS⟩
      · rw [if_neg hiv] at h
        have hfold := foldCycle_ok tasks (allIds tasks)
          (i :: s) (fun v2 d => hasCycle tasks fuel v2 (i :: s) d)
          (fun v2 d w2 hw2 => by
            have hh := ih v2 (i :: s) d w2 hw2
            exact ⟨hh.1, hh.2.1, hh.2.2.1, hh.2.2.2.1, hh.2.2.2.2⟩)
          (depsOf tasks i) (i :: v) w
          (fun d hd => depsOf_subset_allIds hd) h
        obtain ⟨hsub, hds, hbound, hsafe⟩ := hfold
        have hiw : i ∈ w := hsub (List.mem_cons_self i v)
        refine ⟨hiw, fun x hx => hsub (List.mem_cons_of_mem _ hx), his, ?_, ?_⟩
        · intro x hx
          rcases hbound x hx with hx1 | hxA
          · rcases List.mem_cons.mp hx1 with rfl | hxv
            · exact Or.inr (Or.inl rfl)
            · exact Or.inl hxv
          · exact Or.inr (Or.inr hxA)
        · intro hS
          have hS1 : Safe tasks (i :: v) (i :: s) := by
            intro x hxv hxs c hreach
            have hxi : x ≠ i := fun he => hxs (he ▸ List.mem_cons_self i s)
            have hxv2 : x ∈ v := by
              rcases List.mem_cons.mp hxv with rfl | hh
              · exact absurd rfl hxi
              · exact hh
            have hxs2 : x ∉ s := fun hh => hxs (List.mem_cons_of_mem _ hh)
            exact hS x hxv2 hxs2 c hreach
          have hW1 : Safe tasks w (i :: s) := hsafe hS1
          intro x hxw hxs c hreach hcyc
          by_cases hxi : x = i
          · subst hxi
            have hdsafe : ∀ d, depEdge tasks x d →
                ∀ e, Relation.ReflTransGen (depEdge tasks) d e →
                  ¬ Relation.TransGen (depEdge tasks) e e := by
              intro d hedge e hre
              have hdd : d ∈ depsOf tasks x := mem_depsOf.mpr hedge
              obtain ⟨hdw, hdst⟩ := hds d hdd
              exact hW1 d hdw hdst e hre
            rcases Relation.ReflTransGen.cases_head hreach with rfl | ⟨d, hid, hdc⟩
            · rcases Relation.TransGen.head'_iff.mp hcyc with ⟨d, hid, hdi⟩
              exact hdsafe d hid x hdi hcyc
            · exact hdsafe d hid c hdc hcyc
          · have hxs2 : x ∉ i :: s := by
              intro hh
              rcases List.mem_cons.mp hh with h1 | h2
              · exact hxi h1
              · exact hxs h2
            exact hW1 x hxw hxs2 c hreach hcyc

theorem foldCycle_cyc (f : List String → String → Dfs) (P : Prop) :
    ∀ ds v, (∀ v2 d, d ∈ ds → f v2 d = .cyc → P) →
      foldCycle f v ds = .cyc → P := by
  intro ds
  induction ds with
  | nil => intro v _ hw; rw [foldCycle] at hw; cases hw
  | cons d ds ih =>
    intro v hf hw
    rw [foldCycle] at hw
    cases hfd : f v d with
    | ok v1 =>
      rw [hfd] at hw
      exact ih v1 (fun v2 e he => hf v2 e (List.mem_cons_of_mem _ he)) hw
    | cyc => exact hf v d (List.mem_cons_self d ds) hfd
    | out => rw [hfd] at hw; cases hw

theorem hasCycle_cyc {tasks : TaskMap} :
    ∀ fuel v s i, hasCycle tasks fuel v s i = .cyc →
      StackInv tasks s → (∀ h0 hs0, s = h0 :: hs0 → depEdge tasks h0 i) →
      ∃ c, Relation.TransGen (depEdge tasks) c c ∧
        Relation.ReflTransGen (depEdge tasks) (s.getLastD i) c := by
  intro fuel
  induction fuel with
  | zero => intro v s i h; rw [hasCycle] at h; cases h
  | succ fuel ih =>
    intro v s i h hsi hcall
    rw [hasCycle] at h
    by_cases his : i ∈ s
    · cases s with
      | nil => cases his
      | cons h0 hs0 =>
        have hedge : depEdge tasks h0 i := hcall h0 hs0 rfl
        have hreach : Relation.ReflTransGen (depEdge tasks) i h0 :=
          stackInv_reach_head hsi his
        have hcyc : Relation.TransGen (depEdge tasks) i i :=
          Relation.TransGen.tail' hreach hedge
        exact ⟨i, hcyc, stackInv_last_reach hsi his⟩
    · rw [if_neg his] at h
      by_cases hiv : i ∈ v
      · rw [if_pos hiv] at h; cases h
      · rw [if_neg hiv] at h
        refine foldCycle_cyc _ _ (depsOf tasks i) (i :: v) ?_ h
        intro v2 d hd hcd
        have hedge : depEdge tasks i d := mem_depsOf.mp hd
        have hstack2 : StackInv tasks (i :: s) := by
          cases s with
          | nil => trivial
          | cons h0 hs0 => exact ⟨hcall h0 hs0 rfl, hsi⟩
        have hcall2 : ∀ h0 hs0, i :: s = h0 :: hs0 → depEdge tasks h0 d := by
          intro h0 hs0 he
          injection he with he1 _
          subst he1
          exact hedge
        have hsub := ih v2 (i :: s) d hcd hstack2 hcall2
        rw [List.getLastD_cons d i s] at hsub
        exact hsub

theorem foldCycle_not_out {tasks : TaskMap} (f : List String → String → Dfs)
    (fuel : Nat) (hfok : ∀ v d w, f v d = .ok w → v ⊆ w)
    (hfno : ∀ v d, d ∈ allIds tasks →
      ((allIds tasks).toFinset \ v.toFinset).card < fuel → f v d ≠ .out) :
    ∀ ds v, (∀ d ∈ ds, d ∈ allIds tasks) →
      ((allIds tasks).toFinset \ v.toFinset).card < fuel →
      foldCycle f v ds ≠ .out := by
  intro ds
  induction ds with
  | nil => intro v _ _ hw; rw [foldCycle] at hw; cases hw
  | cons d ds ih =>
    intro v hA hcard hw
    rw [foldCycle] at hw
    cases hfd : f v d with
    | ok v1 =>
      rw [hfd] at hw
      have hsub : v ⊆ v1 := hfok v d v1 hfd
      have hcard2 : ((allIds tasks).toFinset \ v1.toFinset).card < fuel := by
        refine lt_of_le_of_lt (Finset.card_le_card ?_) hcard
        intro x hx
        rw [Finset.mem_sdiff] at hx ⊢
        exact ⟨hx.1, fun hv =>
          hx.2 (List.mem_toFinset.mpr (hsub (List.mem_toFinset.mp hv)))⟩
      exact ih v1 (fun e he => hA e (List.mem_cons_of_mem _ he)) hcard2 hw
    | cyc => rw [hfd] at hw; cases hw
    | out => exact hfno v d (hA d (List.mem_cons_self d ds)) hcard hfd

theorem hasCycle_not_out {tasks : TaskMap} :
    ∀ fuel v s i, i ∈ allIds tasks →
      ((allIds tasks).toFinset \ v.toFinset).card < fuel →
      hasCycle tasks fuel v s i ≠ .out := by
  intro fuel
  induction fuel with
  | zero => intro v s i _ hcard; exact absurd hcard (Nat.not_lt_zero _)
  | succ fuel ih =>
    intro v s i hiA hcard h
    rw [hasCycle] at h
    by_cases his : i ∈ s
    · rw [if_pos his] at h; cases h
    · rw [if_neg his] at h
      by_cases hiv : i ∈ v
      · rw [if_pos hiv] at h; cases h
      · rw [if_neg hiv] at h
        have hmem : i ∈ (allIds tasks).toFinset \ v.toFinset :=
          Finset.mem_sdiff.mpr ⟨List.mem_toFinset.mpr hiA,
            fun hc => hiv (List.mem_toFinset.mp hc)⟩
        have hcard2 :
            ((allIds tasks).toFinset \ (i :: v).toFinset).card < fuel := by
          have heq : (allIds tasks).toFinset \ (i :: v).toFinset =
              ((allIds tasks).toFinset \ v.toFinset).erase i := by
            ext x
            simp only [Finset.mem_sdiff, List.mem_toFinset, Finset.mem_erase,
              List.mem_cons]
            tauto
          rw [heq, Finset.card_erase_of_mem hmem]
          have h1 : 1 ≤ ((allIds tasks).toFinset \ v.toFinset).card :=
            Finset.card_pos.mpr ⟨i, hmem⟩
          omega
        refine foldCycle_not_out _ fuel ?_ ?_ (depsOf tasks i) (i :: v)
          (fun d hd => depsOf_subset_allIds hd) hcard2 h
        · intro v2 d w hw
          exact (hasCycle_ok fuel v2 (i :: s) d w hw).2.1
        · intro v2 d hdA hc2
          exact ih v2 (i :: s) d hdA hc2

theorem sdiff_card_mono {A v w : List String} (hsub : v ⊆ w) :
    (A.toFinset \ w.toFinset).card ≤ (A.toFinset \ v.toFinset).card := by
  refine Finset.card_le_card ?_
  intro x hx
  rw [Finset.mem_sdiff] at hx ⊢
  exact ⟨hx.1, fun hv =>
    hx.2 (List.mem_toFinset.mpr (hsub (List.mem_toFinset.mp hv)))⟩

theorem detectLoop_found {tasks : TaskMap} :
    ∀ fuel v ks k, detectLoop tasks fuel v ks = .found k →
      k ∈ ks ∧ ∃ c, Relation.TransGen (depEdge tasks) c c ∧
        Relation.ReflTransGen (depEdge tasks) k c := by
  intro fuel v ks
  induction ks generalizing v with
  | nil => intro k h; rw [detectLoop] at h; cases h
  | cons k0 ks ih =>
    intro k h
    rw [detectLoop] at h
    by_cases hk0 : k0 ∈ v
    · rw [if_pos hk0] at h
      obtain ⟨hmem, hc⟩ := ih v k h
      exact ⟨List.mem_cons_of_mem _ hmem, hc⟩
    · rw [if_neg hk0] at h
      cases hres : hasCycle tasks fuel v [] k0 with
      | ok v1 =>
        rw [hres] at h
        obtain ⟨hmem, hc⟩ := ih v1 k h
        exact ⟨List.mem_cons_of_mem _ hmem, hc⟩
      | cyc =>
        rw [hres] at h
        injection h with hk
        subst hk
        have hc := hasCycle_cyc fuel v [] k0 hres trivial
          (by intro h0 hs0 he; cases he)
        exact ⟨List.mem_cons_self _ _, hc⟩
      | out => rw [hres] at h; cases h

theorem detectLoop_ok_safe {tasks : TaskMap} :
    ∀ fuel v ks w, detectLoop tasks fuel v ks = .ok w → Safe tasks v [] →
      Safe tasks w [] ∧ v ⊆ w ∧ ∀ k ∈ ks, k ∈ w := by
  intro fuel v ks
  induction ks generalizing v with
  | nil =>
    intro w h hS
    rw [detectLoop] at h
    injection h with hvw
    subst hvw
    exact ⟨hS, fun x hx => hx, fun k hk => absurd hk (List.not_mem_nil k)⟩
  | cons k0 ks ih =>
    intro w h hS
    rw [detectLoop] at h
    by_cases hk0 : k0 ∈ v
    · rw [if_pos hk0] at h
      obtain ⟨hSw, hsub, hks⟩ := ih v w h hS
      refine ⟨hSw, hsub, ?_⟩
      intro k hk
      rcases List.mem_cons.mp hk with rfl | hk
      · exact hsub hk0
      · exact hks k hk
    · rw [if_neg hk0] at h
      cases hres : hasCycle tasks fuel v [] k0 with
      | ok v1 =>
        rw [hres] at h
        obtain ⟨hk0v1, hsub1, _, _, hsafe1⟩ := hasCycle_ok fuel v [] k0 v1 hres
        obtain ⟨hSw, hsub2, hks⟩ := ih v1 w h (hsafe1 hS)
        refine ⟨hSw, fun x hx => hsub2 (hsub1 hx), ?_⟩
        intro k hk
        rcases List.mem_cons.mp hk with rfl | hk
        · exact hsub2 hk0v1
        · exact hks k hk
      | cyc => rw [hres] at h; cases h
      | out => rw [hres] at h; cases h

theorem detectLoop_not_out {tasks : TaskMap} :
    ∀ fuel v ks, (∀ k ∈ ks, k ∈ allIds tasks) →
      ((allIds tasks).toFinset \ v.toFinset).card < fuel →
      detectLoop tasks fuel v ks ≠ .out := by
  intro fuel v ks
  induction ks generalizing v with
  | nil => intro _ _ h; rw [detectLoop] at h; cases h
  | cons k0 ks ih =>
    intro hA hcard h
    rw [detectLoop] at h
    by_cases hk0 : k0 ∈ v
    · rw [if_pos hk0] at h
      exact ih v (fun k hk => hA k (List.mem_cons_of_mem _ hk)) hcard h
    · rw [if_neg hk0] at h
      cases hres : hasCycle tasks fuel v [] k0 with
      | ok v1 =>
        rw [hres] at h
        have hsub := (hasCycle_ok fuel v [] k0 v1 hres).2.1
        exact ih v1 (fun k hk => hA k (List.mem_cons_of_mem _ hk))
          (lt_of_le_of_lt (sdiff_card_mono hsub) hcard) h
      | cyc => rw [hres] at h; cases h
      | out =>
        exact hasCycle_not_out fuel v [] k0
          (hA k0 (List.mem_cons_self k0 ks)) hcard hres

theorem detect_fuel_ok {tasks : TaskMap} :
    detectLoop tasks ((allIds tasks).length + 1) []
      (tasks.map (fun p => p.1)) ≠ .out := by
  refine detectLoop_not_out _ [] _ (fun k hk => keys_subset_allIds hk) ?_
  have h1 : ((allIds tasks).toFinset \ ([] : List String).toFinset).card ≤
      (allIds tasks).toFinset.card :=
    Finset.card_le_card (Finset.sdiff_subset)
  have h2 : (allIds tasks).toFinset.card ≤ (allIds tasks).length :=
    List.toFinset_card_le _
  omega

/-- Completeness of the detector: a silent return means the dependency
graph is acyclic. -/
theorem detect_none_acyclic {tasks : TaskMap}
    (h : detect_circular_dependencies tasks = none) :
    ¬ ∃ a, Relation.TransGen (depEdge tasks) a a := by
  rintro ⟨a, ha⟩
  unfold detect_circular_dependencies at h
  cases hres : detectLoop tasks ((allIds tasks).length + 1) []
      (tasks.map (fun p => p.1)) with
  | found k => rw [hres] at h; cases h
  | out => exact absurd hres detect_fuel_ok
  | ok w =>
    obtain ⟨hSw, _, hkeys⟩ := detectLoop_ok_safe _ [] _ w hres
      (by intro x hx; cases hx)
    have hkey : a ∈ tasks.map (fun p => p.1) := cycle_node_is_key ha
    exact hSw a (hkeys a hkey) (List.not_mem_nil a) a
      Relation.ReflTransGen.refl ha

/-- Soundness of the detector: the reported id is a key of the map from
which a cycle of the dependency graph is reachable. -/
theorem detect_some_reaches {tasks : TaskMap} {k : String}
    (h : detect_circular_dependencies tasks = some k) :
    k ∈ tasks.map (fun p => p.1) ∧
      ∃ c, Relation.TransGen (depEdge tasks) c c ∧
        Relation.ReflTransGen (depEdge tasks) k c := by
  unfold detect_circular_dependencies at h
  cases hres : detectLoop tasks ((allIds tasks).length + 1) []
      (tasks.map (fun p => p.1)) with
  | found k2 =>
    rw [hres] at h
    injection h with hk
    subst hk
    exact detectLoop_found _ _ _ _ hres
  | ok w => rw [hres] at h; cases h
  | out => rw [hres] at h; cases h

theorem cyclic_detect_isSome {tasks : TaskMap}
    (h : ∃ a, Relation.TransGen (depEdge tasks) a a) :
    detect_circular_dependencies tasks ≠ none := by
  intro hd
  exact detect_none_acyclic hd h

/-- Insertion into the Python dict image: overwriting keeps the original
position of the key, a fresh key is appended at the end. -/
def dictInsert (k : String) (v : Task) : TaskMap → TaskMap
  | [] => [(k, v)]
  | (k0, v0) :: rest =>
    if k0 == k then (k0, v) :: rest else (k0, v0) :: dictInsert k v rest

/-- The body of the `normalize_tasks` loop for one input record: parse the
deadline and build the `Task` value. -/
def toTask (fromIso : String → Option DateTime) (d : TaskDict) :
    Except PError Task :=
  match parse_deadline fromIso d.deadline with
  | .ok dt =>
    .ok (mkTask d.id d.name dt d.priority d.dependencies d.estimated_hours)
  | .error m => .error (.valueError m)

/-- The `normalize_tasks` loop over the input list, threading the dict. -/
def normGo (fromIso : String → Option DateTime) :
    TaskMap → List TaskDict → Except PError TaskMap
  | acc, [] => .ok acc
  | acc, d :: ds =>
    match toTask fromIso d with
    | .ok t => normGo fromIso (dictInsert d.id t acc) ds
    | .error e => .error e

/-- Models `normalize_tasks`: parse every deadline in input order and build
the id-to-task dict; the first unparseable deadline raises. -/
def normalize_tasks (fromIso : String → Option DateTime)
    (tasks : List TaskDict) : Except PError TaskMap :=
  normGo fromIso [] tasks

/-- Modelled from the spec: a task is eligible once every dependency is
already placed (its unresolved-dependency count is zero). Part of the
Priority Scheduler of spec section 4.3, whose body is missing from the
source (the function ends in a TODO placeholder returning its input). -/
def isEligible (placedIds : List String) (t : Task) : Bool :=
  t.dependencies.all (fun d => placedIds.contains d)

/-- Modelled from the spec: the strict tie-break order of section 4.3,
higher priority first, then earlier deadline, then lower estimated hours. -/
def better (a b : Task) : Bool :=
  (b.priority < a.priority) ||
    (a.priority == b.priority &&
      (a.deadline < b.deadline ||
        (a.deadline == b.deadline && a.estimated_hours < b.estimated_hours)))

/-- Modelled from the spec: pick from the eligible list the task ranked
first by the tie-break policy, keeping the earliest among equals (ties are
broken by original input order). -/
def selectBest : List Task → Option Task
  | [] => none
  | t :: ts => some (ts.foldl (fun best c => if better c best then c else best) t)

/-- Modelled from the spec: the eligible-set scheduling loop of section
4.3. Repeatedly select the best eligible task, append it, and unblock its
dependents. The fuel equals the number of tasks; an empty eligible set with
tasks remaining (impossible on acyclic input) stops early. -/
def schedule : Nat → List Task → List Task → List Task
  | 0, acc, _ => acc.reverse
  | fuel + 1, acc, remaining =>
    match selectBest (remaining.filter (fun t => isEligible (acc.map Task.id) t)) with
    | none => acc.reverse
    | some t =>
      schedule fuel (t :: acc) (remaining.eraseP (fun c => c.id == t.id))

/-- Models `prioritize_tasks`: empty input short-circuits; otherwise
normalize, validate every task in dict order, detect cycles, and hand the
normalized tasks to the scheduler. The validation, cycle-detection and
normalization stages follow the source; the final scheduling stage is
modelled from the spec because the source leaves it as a TODO placeholder. -/
def prioritize_tasks (fromIso : String → Option DateTime)
    (tasks : List TaskDict) : Except PError (List Task) :=
  if tasks.isEmpty then .ok []
  else
    match normalize_tasks fromIso tasks with
    | .error e => .error e
    | .ok normalized =>
      match (normalized.map (fun p => p.2)).findSome?
          (fun t => validate_task t (tasks.map (fun t2 => t2.id))) with
      | some e => .error e
      | none =>
        match detect_circular_dependencies normalized with
        | some k =>
          .error (.circular
            ("Circular dependency detected involving task \"" ++ k ++ "\"."))
        | none =>
          .ok (schedule (normalized.map (fun p => p.2)).length []
            (normalized.map (fun p => p.2)))

def noIso : String → Option DateTime := fun _ => none

/-- The worked example of the spec, in input order, deadlines as parsed
time values. -/
def workedExample : List TaskDict :=
  [ { id := "1", name := "Setup project", deadline := .dt 20240125,
      priority := 5, dependencies := [], estimated_hours := 2 },
    { id := "2", name := "Write tests", deadline := .dt 20240120,
      priority := 4, dependencies := ["1"], estimated_hours := 4 },
    { id := "3", name := "Implement feature", deadline := .dt 20240122,
      priority := 5, dependencies := ["1"], estimated_hours := 8 },
    { id := "4", name := "Code review", deadline := .dt 20240118,
      priority := 3, dependencies := ["2", "3"], estimated_hours := 2 },
    { id := "5", name := "Documentation", deadline := .dt 20240130,
      priority := 2, dependencies := ["4"], estimated_hours := 3 } ]

example :
    (prioritize_tasks noIso workedExample).map (fun l => l.map Task.id) =
      .ok ["1", "3", "2", "4", "5"] := by rfl

example : prioritize_tasks noIso [] = .ok [] := by rfl

theorem validate_not_priority_error {t : Task} {ids : List String} {m : String}
    (hp : ¬(t.priority < PRIORITY_MIN ∨ t.priority > PRIORITY_MAX)) :
    validate_task t ids ≠ some (.invalidPriority m) := by
  intro hm
  rw [validate_task, if_neg hp] at hm
  cases hf : t.dependencies.find? (fun d => !(ids.contains d)) with
  | some d => rw [hf] at hm; simp at hm
  | none =>
    rw [hf] at hm
    by_cases hh : t.estimated_hours < 0
    · rw [if_pos hh] at hm; simp at hm
    · rw [if_neg hh] at hm; cases hm

/-- C5: validation raises `InvalidPriorityError` exactly when the priority
lies outside the closed range [1, 5], and the message then contains the
offending task id and the invalid priority value; an in-range priority
never triggers this error. -/
theorem C5_invalid_priority_iff :
    ∀ (t : Task) (ids : List String),
      ((∃ m, validate_task t ids = some (.invalidPriority m)) ↔
        (t.priority < PRIORITY_MIN ∨ t.priority > PRIORITY_MAX)) ∧
      (∀ m, validate_task t ids = some (.invalidPriority m) →
        (∃ s1 s2, m = s1 ++ t.id ++ s2) ∧
        (∃ s1 s2, m = s1 ++ toString t.priority ++ s2)) := by
  intro t ids
  constructor
  · constructor
    · rintro ⟨m, hm⟩
      by_cases hp : t.priority < PRIORITY_MIN ∨ t.priority > PRIORITY_MAX
      · exact hp
      · exact absurd hm (validate_not_priority_error hp)
    · intro hp
      exact ⟨priorityMsg t, by rw [validate_task, if_pos hp]⟩
  · intro m hm
    have hmm : m = priorityMsg t := by
      by_cases hp : t.priority < PRIORITY_MIN ∨ t.priority > PRIORITY_MAX
      · rw [validate_task, if_pos hp] at hm
        injection hm with h1
        injection h1 with h2
        exact h2.symm
      · exact absurd hm (validate_not_priority_error hp)
    subst hmm
    constructor
    · refine ⟨"Task \"", "\" has invalid priority " ++ toString t.priority ++
        ". Priority must be between " ++ toString PRIORITY_MIN ++ " and " ++
        toString PRIORITY_MAX ++ ".", ?_⟩
      simp only [priorityMsg, String.append_assoc]
    · refine ⟨"Task \"" ++ t.id ++ "\" has invalid priority ",
        ". Priority must be between " ++ toString PRIORITY_MIN ++ " and " ++
        toString PRIORITY_MAX ++ ".", ?_⟩
      simp only [priorityMsg, String.append_assoc]

/-- Witness for C5 at a concrete task with priority 0. -/
theorem C5_invalid_priority_iff_witness :
    ((∃ m, validate_task (mkTask "7" "n" 0 0 [] 2) ["7"] =
        some (.invalidPriority m)) ↔
      ((mkTask "7" "n" 0 0 [] 2).priority < PRIORITY_MIN ∨
        (mkTask "7" "n" 0 0 [] 2).priority > PRIORITY_MAX)) ∧
    ((∃ s1 s2, priorityMsg (mkTask "7" "n" 0 0 [] 2) = s1 ++ "7" ++ s2) ∧
      (∃ s1 s2, priorityMsg (mkTask "7" "n" 0 0 [] 2) =
        s1 ++ toString (0 : Int) ++ s2)) :=
  ⟨(C5_invalid_priority_iff (mkTask "7" "n" 0 0 [] 2) ["7"]).1,
    (C5_invalid_priority_iff (mkTask "7" "n" 0 0 [] 2) ["7"]).2
      (priorityMsg (mkTask "7" "n" 0 0 [] 2)) (by rfl)⟩

/-- C10: `parse_deadline` is the identity on already-parsed datetime inputs
and therefore idempotent on every input on which it succeeds. -/
theorem C10_parse_deadline_idempotent :
    (∀ (fromIso : String → Option DateTime) (d : DateTime),
      parse_deadline fromIso (.dt d) = .ok d) ∧
    (∀ (fromIso : String → Option DateTime) (x : DeadlineInput) (d : DateTime),
      parse_deadline fromIso x = .ok d →
        parse_deadline fromIso (.dt d) = parse_deadline fromIso x) := by
  refine ⟨fun _ _ => rfl, ?_⟩
  intro fromIso x d h
  rw [h]
  rfl

/-- Witness for C10 at a concrete datetime value. -/
theorem C10_parse_deadline_idempotent_witness :
    parse_deadline noIso (.dt 7) = .ok 7 ∧
      parse_deadline noIso (.dt 7) = parse_deadline noIso (.dt 7) :=
  ⟨C10_parse_deadline_idempotent.1 noIso 7,
    C10_parse_deadline_idempotent.2 noIso (.dt 7) 7 (by rfl)⟩

/-- C4: when every dependency reference resolves, the detector raises
exactly when the dependency graph (edge task to dependency) has a cycle;
in particular a self-dependency, a cycle of length one, is detected, and an
acyclic graph raises nothing. -/
theorem C4_detect_iff_cycle :
    ∀ tasks : TaskMap,
      (∀ p ∈ tasks, ∀ d ∈ p.2.dependencies, d ∈ tasks.map (fun q => q.1)) →
      ((detect_circular_dependencies tasks).isSome ↔
        ∃ a, Relation.TransGen (depEdge tasks) a a) := by
  intro tasks _
  constructor
  · intro hs
    cases hd : detect_circular_dependencies tasks with
    | none => rw [hd] at hs; cases hs
    | some k =>
      obtain ⟨_, c, hc, _⟩ := detect_some_reaches hd
      exact ⟨c, hc⟩
  · intro hcyc
    cases hd : detect_circular_dependencies tasks with
    | none => exact absurd hcyc (detect_none_acyclic hd)
    | some k => rfl

/-- A one-task map whose task depends on itself: all references resolve. -/
def exSelf : TaskMap := [("1", mkTask "1" "n" 0 3 ["1"] 2)]

/-- Witness for C4 at the self-dependency map. -/
theorem C4_detect_iff_cycle_witness :
    (∀ p ∈ exSelf, ∀ d ∈ p.2.dependencies, d ∈ exSelf.map (fun q => q.1)) ∧
    ((detect_circular_dependencies exSelf).isSome ↔
      ∃ a, Relation.TransGen (depEdge exSelf) a a) :=
  ⟨by decide, C4_detect_iff_cycle exSelf (by decide)⟩

theorem noEdge_into_A {b : String} (hedge : depEdge exLeadsIn b "A") :
    False := by
  obtain ⟨t, hl, hmem⟩ := hedge
  have hmemL := lookup_mem hl
  rcases List.mem_cons.mp hmemL with he | hmemL2
  · rw [Prod.mk.injEq] at he
    obtain ⟨hb, ht⟩ := he
    subst ht
    simp only [mkTask] at hmem
    rw [List.mem_singleton] at hmem
    exact absurd hmem (by decide)
  · rcases List.mem_cons.mp hmemL2 with he | h0
    · rw [Prod.mk.injEq] at he
      obtain ⟨hb, ht⟩ := he
      subst ht
      simp only [mkTask] at hmem
      rw [List.mem_singleton] at hmem
      exact absurd hmem (by decide)
    · cases h0

/-- Counterexample to C6: on the map where task A depends on B and B
depends on itself, the error names A, yet A lies on no cycle; the reported
id is merely the traversal start that leads into the cycle. -/
theorem C6_counterexample :
    detect_circular_dependencies exLeadsIn = some "A" ∧
      ¬ Relation.TransGen (depEdge exLeadsIn) "A" "A" := by
  refine ⟨by rfl, ?_⟩
  intro hcyc
  cases hcyc with
  | single h => exact noEdge_into_A h
  | tail h1 h2 => exact noEdge_into_A h2

/-- C6 (amended): whenever the detector raises, the task id named in the
error is the top-level key whose depth-first traversal found the cycle: it
is a key of the map and a cycle is reachable from it along dependency
edges, but it need not itself lie on the cycle. -/
theorem C6_amended_reported_reaches_cycle :
    ∀ (tasks : TaskMap) (k : String),
      detect_circular_dependencies tasks = some k →
      k ∈ tasks.map (fun p => p.1) ∧
        ∃ c, Relation.TransGen (depEdge tasks) c c ∧
          Relation.ReflTransGen (depEdge tasks) k c := by
  intro tasks k h
  exact detect_some_reaches h

/-- Witness for the amended C6 at the concrete two-task map. -/
theorem C6_amended_witness :
    "A" ∈ exLeadsIn.map (fun p => p.1) ∧
      ∃ c, Relation.TransGen (depEdge exLeadsIn) c c ∧
        Relation.ReflTransGen (depEdge exLeadsIn) "A" c :=
  C6_amended_reported_reaches_cycle exLeadsIn "A" (by rfl)

/-- C9: the detector is total on maps with unresolvable dependency ids: a
missing id is a node with no outgoing edges (its dependency list is read as
empty), the detector still returns silently exactly on acyclic graphs, and
any id it reports is a key of the map, never a missing id. -/
theorem C9_missing_deps_harmless :
    ∀ tasks : TaskMap,
      ((detect_circular_dependencies tasks = none) ↔
        ¬ ∃ a, Relation.TransGen (depEdge tasks) a a) ∧
      (∀ k, detect_circular_dependencies tasks = some k →
        k ∈ tasks.map (fun p => p.1)) ∧
      (∀ i, tasks.lookup i = none → depsOf tasks i = []) := by
  intro tasks
  refine ⟨⟨detect_none_acyclic, ?_⟩, ?_, ?_⟩
  · intro hna
    cases hd : detect_circular_dependencies tasks with
    | none => rfl
    | some k =>
      obtain ⟨_, c, hc, _⟩ := detect_some_reaches hd
      exact absurd ⟨c, hc⟩ hna
  · intro k h
    exact (detect_some_reaches h).1
  · intro i h
    unfold depsOf
    rw [h]

/-- A one-task map with an unresolvable dependency id. -/
def exMissing : TaskMap := [("A", mkTask "A" "a" 0 3 ["X"] 1)]

/-- A one-task map with an unresolvable dependency and a self-loop. -/
def exMissingCyc : TaskMap := [("A", mkTask "A" "a" 0 3 ["X", "A"] 1)]

theorem exMissing_edge {a b : String} (h : depEdge exMissing a b) :
    a = "A" ∧ b = "X" := by
  obtain ⟨t, hl, hmem⟩ := h
  have hm := lookup_mem hl
  rcases List.mem_cons.mp hm with he | h0
  · rw [Prod.mk.injEq] at he
    obtain ⟨ha, ht⟩ := he
    subst ht
    simp only [mkTask] at hmem
    rw [List.mem_singleton] at hmem
    exact ⟨ha, hmem⟩
  · cases h0

theorem exMissing_acyclic :
    ¬ ∃ a, Relation.TransGen (depEdge exMissing) a a := by
  rintro ⟨a, ha⟩
  rcases Relation.TransGen.head'_iff.mp ha with ⟨b, hab, hba⟩
  obtain ⟨ha1, hb1⟩ := exMissing_edge hab
  subst ha1
  subst hb1
  rcases Relation.ReflTransGen.cases_head hba with he | ⟨c, hxc, _⟩
  · exact absurd he (by decide)
  · exact absurd (exMissing_edge hxc).1 (by decide)

/-- Witness for C9: a map with a missing dependency raises nothing, and on
a map that also has a self-loop, the reported id is a key. -/
theorem C9_missing_deps_harmless_witness :
    detect_circular_dependencies exMissing = none ∧
      "A" ∈ exMissingCyc.map (fun p => p.1) ∧
      depsOf exMissing "X" = [] :=
  ⟨(C9_missing_deps_harmless exMissing).1.mpr exMissing_acyclic,
    (C9_missing_deps_harmless exMissingCyc).2.1 "A" (by rfl),
    (C9_missing_deps_harmless exMissing).2.2 "X" (by rfl)⟩

/-- The scheduler accumulator seen in placement-reversed order: every
entry lists only dependencies of entries placed before it (later in the
accumulator). -/
def DepsClosed : List Task → Prop
  | [] => True
  | t :: rest => (∀ d ∈ t.dependencies, d ∈ rest.map Task.id) ∧ DepsClosed rest

theorem foldl_better_mem (ts : List Task) :
    ∀ best, ts.foldl (fun b c => if better c b then c else b) best ∈ best :: ts := by
  induction ts with
  | nil => intro best; exact List.mem_cons_self _ _
  | cons c cs ih =>
    intro best
    rw [List.foldl_cons]
    rcases List.mem_cons.mp (ih (if better c best then c else best)) with he | hm
    · rw [he]
      by_cases hb : better c best
      · rw [if_pos hb]
        exact List.mem_cons_of_mem _ (List.mem_cons_self _ _)
      · rw [if_neg hb]
        exact List.mem_cons_self _ _
    · exact List.mem_cons_of_mem _ (List.mem_cons_of_mem _ hm)

theorem selectBest_mem {l : List Task} {t : Task} (h : selectBest l = some t) :
    t ∈ l := by
  cases l with
  | nil => cases h
  | cons t0 ts =>
    rw [selectBest] at h
    injection h with ht
    rw [← ht]
    exact foldl_better_mem ts t0

theorem schedule_acc :
    ∀ (fuel : Nat) (acc rem : List Task), DepsClosed acc →
      ∃ acc2, schedule fuel acc rem = acc2.reverse ∧ DepsClosed acc2 := by
  intro fuel
  induction fuel with
  | zero => intro acc rem h; exact ⟨acc, rfl, h⟩
  | succ fuel ih =>
    intro acc rem h
    rw [schedule]
    cases hsel : selectBest (rem.filter (fun t => isEligible (acc.map Task.id) t)) with
    | none => exact ⟨acc, rfl, h⟩
    | some t =>
      have htmem := selectBest_mem hsel
      have helig : isEligible (acc.map Task.id) t = true :=
        (List.mem_filter.mp htmem).2
      have hdeps : ∀ d ∈ t.dependencies, d ∈ acc.map Task.id := by
        intro d hd
        have := (List.all_eq_true.mp helig) d hd
        exact List.contains_iff_exists_mem_beq.mp this |>.elim
          (fun x hx => by
            obtain ⟨hxm, hbeq⟩ := hx
            have : d = x := eq_of_beq hbeq
            rw [this]
            exact hxm)
      exact ih (t :: acc) (rem.eraseP (fun c => c.id == t.id)) ⟨hdeps, h⟩

/-- Index form of the accumulator invariant on the accumulator itself:
every dependency id occurs at a strictly larger index. -/
theorem depsClosed_index {acc : List Task} (h : DepsClosed acc) :
    ∀ (i : Nat) (hi : i < acc.length) (d : String),
      d ∈ (acc.get ⟨i, hi⟩).dependencies →
      ∃ (j : Nat) (hj : j < acc.length), i < j ∧ (acc.get ⟨j, hj⟩).id = d := by
  induction acc with
  | nil => intro i hi; simp at hi
  | cons t rest ih =>
    obtain ⟨hdeps, hrest⟩ := h
    intro i hi d hd
    cases i with
    | zero =>
      have hd2 : d ∈ t.dependencies := hd
      obtain ⟨r, hrm, hrid⟩ := List.mem_map.mp (hdeps d hd2)
      obtain ⟨⟨k, hk⟩, hkr⟩ := List.mem_iff_get.mp hrm
      refine ⟨k + 1, Nat.succ_lt_succ hk, Nat.succ_pos k, ?_⟩
      have hg : (t :: rest).get ⟨k + 1, Nat.succ_lt_succ hk⟩ =
          rest.get ⟨k, hk⟩ := rfl
      rw [hg, hkr, hrid]
    | succ i2 =>
      have hi2 : i2 < rest.length := Nat.lt_of_succ_lt_succ hi
      have hd2 : d ∈ (rest.get ⟨i2, hi2⟩).dependencies := hd
      obtain ⟨j, hj, hij, hjid⟩ := ih hrest i2 hi2 d hd2
      exact ⟨j + 1, Nat.succ_lt_succ hj, Nat.succ_lt_succ hij, hjid⟩

/-- Conversion of the accumulator invariant to the index statement on the
emitted (reversed) order. -/
theorem depsClosed_reverse_respects {acc : List Task} (h : DepsClosed acc) :
    ∀ (i : Nat) (hi : i < acc.reverse.length) (d : String),
      d ∈ (acc.reverse.get ⟨i, hi⟩).dependencies →
      ∃ (j : Nat) (hj : j < acc.reverse.length), j < i ∧
        (acc.reverse.get ⟨j, hj⟩).id = d := by
  intro i hi d hd
  have hlen : acc.reverse.length = acc.length := List.length_reverse acc
  have hi2 : i < acc.length := by omega
  have hd2 : d ∈ (acc.get ⟨acc.length - 1 - i, by omega⟩).dependencies := by
    have hgr : acc.reverse.get ⟨i, hi⟩ =
        acc.get ⟨acc.length - 1 - i, by omega⟩ := by
      rw [List.get_eq_getElem, List.get_eq_getElem]
      exact List.getElem_reverse hi
    rw [← hgr]
    exact hd
  obtain ⟨j2, hj2, hij2, hjid⟩ :=
    depsClosed_index h (acc.length - 1 - i) (by omega) d hd2
  refine ⟨acc.length - 1 - j2, by omega, by omega, ?_⟩
  have hget2 : acc.reverse.get ⟨acc.length - 1 - j2, by omega⟩ =
      acc.get ⟨j2, hj2⟩ := List.get_reverse acc j2 (by omega) hj2
  rw [hget2]
  exact hjid

/-- C1: on every successful run, the returned sequence respects
dependencies: each dependency id of an emitted record occurs as the id of a
record at a strictly smaller index. -/
theorem C1_output_respects_dependencies :
    ∀ (fromIso : String → Option DateTime) (tasks : List TaskDict)
      (out : List Task),
      prioritize_tasks fromIso tasks = .ok out →
      ∀ (i : Nat) (hi : i < out.length) (d : String),
        d ∈ (out.get ⟨i, hi⟩).dependencies →
        ∃ (j : Nat) (hj : j < out.length), j < i ∧ (out.get ⟨j, hj⟩).id = d := by
  intro fromIso tasks out h
  rw [prioritize_tasks] at h
  split at h
  · injection h with h2
    subst h2
    intro i hi
    simp at hi
  · split at h
    · cases h
    · next normalized heq =>
      split at h
      · cases h
      · split at h
        · cases h
        · injection h with h2
          obtain ⟨acc2, hsched, hclosed⟩ := schedule_acc
            (normalized.map (fun p => p.2)).length []
            (normalized.map (fun p => p.2)) trivial
          rw [hsched] at h2
          subst h2
          exact depsClosed_reverse_respects hclosed

/-- The concrete output of the pipeline on the worked example. -/
def outEx : List Task :=
  [ mkTask "1" "Setup project" 20240125 5 [] 2,
    mkTask "3" "Implement feature" 20240122 5 ["1"] 8,
    mkTask "2" "Write tests" 20240120 4 ["1"] 4,
    mkTask "4" "Code review" 20240118 3 ["2", "3"] 2,
    mkTask "5" "Documentation" 20240130 2 ["4"] 3 ]

/-- Witness for C1 on the worked example: the dependency of the record at
index 1 appears at a smaller index. -/
theorem C1_output_respects_dependencies_witness :
    ∃ (j : Nat) (hj : j < outEx.length), j < 1 ∧
      (outEx.get ⟨j, hj⟩).id = "1" :=
  C1_output_respects_dependencies noIso workedExample outEx (by rfl) 1
    (by decide) "1" (by decide)

theorem contains_mem {l : List String} {d : String}
    (h : l.contains d = true) : d ∈ l := by
  obtain ⟨x, hx, hbeq⟩ := List.contains_iff_exists_mem_beq.mp h
  rw [eq_of_beq hbeq]
  exact hx

theorem mem_contains {l : List String} {d : String} (h : d ∈ l) :
    l.contains d = true :=
  List.contains_iff_exists_mem_beq.mpr ⟨d, h, by simp⟩

theorem isEligible_iff {pids : List String} {t : Task} :
    isEligible pids t = true ↔ ∀ d ∈ t.dependencies, d ∈ pids := by
  unfold isEligible
  rw [List.all_eq_true]
  constructor
  · intro h d hd
    exact contains_mem (h d hd)
  · intro h d hd
    exact mem_contains (h d hd)

/-- The dependency edges read off a plain list of task records. -/
def listDepEdge (l : List Task) (a b : String) : Prop :=
  ∃ t ∈ l, t.id = a ∧ b ∈ t.dependencies

/-- In a nonempty acyclic remainder whose dependencies all resolve either
to an already placed id or to a remaining task, some remaining task is
eligible. -/
theorem exists_eligible {rem : List Task} {pids : List String}
    (hne : rem ≠ [])
    (hacyc : ∀ a, ¬ Relation.TransGen (listDepEdge rem) a a)
    (hres : ∀ t ∈ rem, ∀ d ∈ t.dependencies,
      d ∈ pids ∨ d ∈ rem.map Task.id) :
    ∃ t ∈ rem, isEligible pids t = true := by
  have hSne : ∃ x, x ∈ (rem.map Task.id).toFinset := by
    cases rem with
    | nil => exact absurd rfl hne
    | cons t ts => exact ⟨t.id, by simp⟩
  obtain ⟨x0, hx0⟩ := hSne
  have hwf : WellFounded (fun (x y : {z // z ∈ (rem.map Task.id).toFinset}) =>
      Relation.TransGen (listDepEdge rem) y.1 x.1) := by
    have htrans : IsTrans {z // z ∈ (rem.map Task.id).toFinset}
        (fun x y => Relation.TransGen (listDepEdge rem) y.1 x.1) :=
      ⟨fun _ _ _ hab hbc => Relation.TransGen.trans hbc hab⟩
    have hirr : IsIrrefl {z // z ∈ (rem.map Task.id).toFinset}
        (fun x y => Relation.TransGen (listDepEdge rem) y.1 x.1) :=
      ⟨fun a ha => hacyc a.1 ha⟩
    exact Finite.wellFounded_of_trans_of_irrefl _
  obtain ⟨m, _, hmin⟩ := hwf.has_min Set.univ ⟨⟨x0, hx0⟩, Set.mem_univ _⟩
  have hmrem : m.1 ∈ rem.map Task.id := List.mem_toFinset.mp m.2
  obtain ⟨tm, htm, htmid⟩ := List.mem_map.mp hmrem
  refine ⟨tm, htm, isEligible_iff.mpr ?_⟩
  intro d hd
  rcases hres tm htm d hd with hp | hr
  · exact hp
  · exfalso
    have hdS : d ∈ (rem.map Task.id).toFinset := List.mem_toFinset.mpr hr
    have hedge : listDepEdge rem m.1 d := ⟨tm, htm, htmid, hd⟩
    exact hmin ⟨d, hdS⟩ (Set.mem_univ _) (Relation.TransGen.single hedge)

/-- The scheduling loop emits a permutation of placed plus remaining ids,
provided the remainder is drawn from an acyclic universe, its ids are
fresh, and every dependency resolves. -/
theorem schedule_perm (univ : List Task) :
    ∀ (fuel : Nat) (acc rem : List Task),
      fuel = rem.length →
      (∀ t ∈ rem, t ∈ univ) →
      (∀ a, ¬ Relation.TransGen (listDepEdge univ) a a) →
      (acc.map Task.id ++ rem.map Task.id).Nodup →
      (∀ t ∈ rem, ∀ d ∈ t.dependencies,
        d ∈ acc.map Task.id ∨ d ∈ rem.map Task.id) →
      ((schedule fuel acc rem).map Task.id).Perm
        (acc.map Task.id ++ rem.map Task.id) := by
  intro fuel
  induction fuel with
  | zero =>
    intro acc rem hlen _ _ _ _
    have hnil : rem = [] := List.eq_nil_of_length_eq_zero hlen.symm
    subst hnil
    rw [schedule, List.map_nil, List.append_nil, List.map_reverse]
    exact List.reverse_perm _
  | succ fuel ih =>
    intro acc rem hlen hsubU hacyc hnodup hres
    rw [schedule]
    cases hsel : selectBest
        (rem.filter (fun t => isEligible (acc.map Task.id) t)) with
    | none =>
      exfalso
      have hne : rem ≠ [] := by
        intro he
        rw [he] at hlen
        simp at hlen
      have hacyc2 : ∀ a, ¬ Relation.TransGen (listDepEdge rem) a a :=
        fun a ha => hacyc a (ha.mono (fun x y hxy => by
          obtain ⟨t, ht, h1, h2⟩ := hxy
          exact ⟨t, hsubU t ht, h1, h2⟩))
      obtain ⟨t, htm, helig⟩ := exists_eligible hne hacyc2 hres
      have hmem : t ∈ rem.filter (fun t => isEligible (acc.map Task.id) t) :=
        List.mem_filter.mpr ⟨htm, helig⟩
      cases hfil : rem.filter (fun t => isEligible (acc.map Task.id) t) with
      | nil => rw [hfil] at hmem; cases hmem
      | cons a as =>
        rw [hfil] at hsel
        rw [selectBest] at hsel
        cases hsel
    | some t =>
      have htrem : t ∈ rem := (List.mem_filter.mp (selectBest_mem hsel)).1
      have hpt : (fun c => c.id == t.id) t = true := by simp
      obtain ⟨a, l1, l2, hnl1, hpa, hrem_eq, herase⟩ :=
        List.exists_of_eraseP (p := fun c => c.id == t.id) htrem hpt
      have haid : a.id = t.id := eq_of_beq hpa
      have harem : a ∈ rem := by
        rw [hrem_eq]
        exact List.mem_append_right _ (List.mem_cons_self _ _)
      have hnodup_rem : (rem.map Task.id).Nodup :=
        List.Nodup.of_append_right hnodup
      have hat : a = t := List.inj_on_of_nodup_map hnodup_rem harem htrem haid
      subst hat
      have hperm1 : (rem.map Task.id).Perm
          (a.id :: (l1 ++ l2).map Task.id) := by
        rw [hrem_eq, List.map_append, List.map_cons, List.map_append]
        exact List.perm_middle
      have hperm2 : (rem.map Task.id).Perm
          (a.id :: (rem.eraseP (fun c => c.id == a.id)).map Task.id) := by
        rw [herase]
        exact hperm1
      have hlen2 : fuel = (rem.eraseP (fun c => c.id == a.id)).length := by
        have h1 : rem.length = l1.length + (a :: l2).length := by
          rw [hrem_eq, List.length_append]
        have h2 : (rem.eraseP (fun c => c.id == a.id)).length =
            l1.length + l2.length := by
          rw [herase, List.length_append]
        simp only [List.length_cons] at h1
        omega
      have hsubE : ∀ x ∈ rem.eraseP (fun c => c.id == a.id), x ∈ rem :=
        fun x hx => (List.eraseP_sublist rem).subset hx
      have hsubU2 : ∀ x ∈ rem.eraseP (fun c => c.id == a.id), x ∈ univ :=
        fun x hx => hsubU x (hsubE x hx)
      have hnodup2 : ((a :: acc).map Task.id ++
          (rem.eraseP (fun c => c.id == a.id)).map Task.id).Nodup := by
        have hstep1 : (acc.map Task.id ++ rem.map Task.id).Perm
            (acc.map Task.id ++ (a.id ::
              (rem.eraseP (fun c => c.id == a.id)).map Task.id)) :=
          List.Perm.append_left _ hperm2
        have hstep2 : (acc.map Task.id ++ (a.id ::
            (rem.eraseP (fun c => c.id == a.id)).map Task.id)).Perm
            (a.id :: (acc.map Task.id ++
              (rem.eraseP (fun c => c.id == a.id)).map Task.id)) :=
          List.perm_middle
        have := (hstep1.trans hstep2).nodup hnodup
        simpa using this
      have hres2 : ∀ x ∈ rem.eraseP (fun c => c.id == a.id),
          ∀ d ∈ x.dependencies, d ∈ (a :: acc).map Task.id ∨
            d ∈ (rem.eraseP (fun c => c.id == a.id)).map Task.id := by
        intro x hx d hd
        rcases hres x (hsubE x hx) d hd with hp | hr
        · exact Or.inl (List.mem_cons_of_mem _ hp)
        · have : d ∈ a.id ::
              (rem.eraseP (fun c => c.id == a.id)).map Task.id :=
            hperm2.subset hr
          rcases List.mem_cons.mp this with rfl | hm
          · exact Or.inl (List.mem_cons_self _ _)
          · exact Or.inr hm
      have hrec := ih (a :: acc) (rem.eraseP (fun c => c.id == a.id))
        hlen2 hsubU2 hacyc hnodup2 hres2
      refine hrec.trans ?_
      have hstep2 : ((a.id :: (acc.map Task.id ++
          (rem.eraseP (fun c => c.id == a.id)).map Task.id)) :
            List String).Perm
          (acc.map Task.id ++ (a.id ::
            (rem.eraseP (fun c => c.id == a.id)).map Task.id)) :=
        List.perm_middle.symm
      have hstep3 : (acc.map Task.id ++ (a.id ::
          (rem.eraseP (fun c => c.id == a.id)).map Task.id)).Perm
          (acc.map Task.id ++ rem.map Task.id) :=
        List.Perm.append_left _ hperm2.symm
      have hcast : (a :: acc).map Task.id ++
            (rem.eraseP (fun c => c.id == a.id)).map Task.id
          = a.id :: (acc.map Task.id ++
              (rem.eraseP (fun c => c.id == a.id)).map Task.id) := by simp
      rw [hcast]
      exact hstep2.trans hstep3

theorem dictInsert_fresh {k : String} {v : Task} :
    ∀ {l : TaskMap}, k ∉ l.map (fun p => p.1) →
      dictInsert k v l = l ++ [(k, v)] := by
  intro l
  induction l with
  | nil => intro h2; rfl
  | cons p ps ih =>
    intro h
    obtain ⟨k0, v0⟩ := p
    rw [dictInsert]
    have hk : ¬(k0 == k) = true := by
      intro hbeq
      exact h (by
        rw [eq_of_beq hbeq]
        exact List.mem_cons_self _ _)
    rw [if_neg hk]
    have h2 : k ∉ ps.map (fun p => p.1) :=
      fun hm => h (List.mem_cons_of_mem _ hm)
    rw [ih h2]
    rfl

theorem normGo_ok {fromIso : String → Option DateTime} :
    ∀ (ds : List TaskDict) (acc m : TaskMap),
      normGo fromIso acc ds = .ok m →
      (∀ d ∈ ds, d.id ∉ acc.map (fun p => p.1)) →
      (ds.map (fun d => d.id)).Nodup →
      ∃ ts : TaskMap, m = acc ++ ts ∧
        List.Forall₂ (fun (d : TaskDict) (p : String × Task) =>
          p.1 = d.id ∧ toTask fromIso d = .ok p.2) ds ts := by
  intro ds
  induction ds with
  | nil =>
    intro acc m h _ _
    rw [normGo] at h
    injection h with h2
    exact ⟨[], by rw [← h2, List.append_nil], List.Forall₂.nil⟩
  | cons d ds ih =>
    intro acc m h hfresh hnodup
    rw [normGo] at h
    split at h
    case h_2 => cases h
    case h_1 t htok =>
      have hfr : d.id ∉ acc.map (fun p => p.1) :=
        hfresh d (List.mem_cons_self _ _)
      rw [dictInsert_fresh hfr] at h
      have hfresh2 : ∀ x ∈ ds,
          x.id ∉ (acc ++ [(d.id, t)]).map (fun p => p.1) := by
        intro x hx hm
        rw [List.map_append] at hm
        rcases List.mem_append.mp hm with h1 | h2
        · exact hfresh x (List.mem_cons_of_mem _ hx) h1
        · have hxid : x.id = d.id := by simpa using h2
          have hnd := List.nodup_cons.mp hnodup
          exact hnd.1 (List.mem_map.mpr ⟨x, hx, hxid⟩)
      have hnd2 : (ds.map (fun d => d.id)).Nodup :=
        (List.nodup_cons.mp hnodup).2
      obtain ⟨ts, hm2, hfa⟩ := ih (acc ++ [(d.id, t)]) m h hfresh2 hnd2
      refine ⟨(d.id, t) :: ts, ?_, List.Forall₂.cons ⟨rfl, htok⟩ hfa⟩
      rw [hm2, List.append_assoc]
      rfl

theorem forall2_keys {fromIso : String → Option DateTime} :
    ∀ {ds : List TaskDict} {ts : TaskMap},
      List.Forall₂ (fun (d : TaskDict) (p : String × Task) =>
        p.1 = d.id ∧ toTask fromIso d = .ok p.2) ds ts →
      ts.map (fun p => p.1) = ds.map (fun d => d.id) := by
  intro ds ts h
  induction h with
  | nil => rfl
  | cons hR _ ihr => simp [ihr, hR.1]

theorem toTask_fields {fromIso : String → Option DateTime} {d : TaskDict}
    {t : Task} (h : toTask fromIso d = .ok t) :
    t.id = d.id ∧ t.name = d.name ∧ t.priority = d.priority ∧
      t.dependencies = d.dependencies ∧
      t.estimated_hours = d.estimated_hours ∧
      parse_deadline fromIso d.deadline = .ok t.deadline := by
  rw [toTask] at h
  split at h
  · next dt heq =>
    injection h with h2
    rw [← h2]
    exact ⟨rfl, rfl, rfl, rfl, rfl, heq⟩
  · next => cases h

theorem forall2_value_ids {fromIso : String → Option DateTime} :
    ∀ {ds : List TaskDict} {ts : TaskMap},
      List.Forall₂ (fun (d : TaskDict) (p : String × Task) =>
        p.1 = d.id ∧ toTask fromIso d = .ok p.2) ds ts →
      ts.map (fun p => p.2.id) = ds.map (fun d => d.id) := by
  intro ds ts h
  induction h with
  | nil => rfl
  | cons hR _ ihr => simp [ihr, (toTask_fields hR.2).1]

theorem forall2_mem_right {fromIso : String → Option DateTime} :
    ∀ {ds : List TaskDict} {ts : TaskMap},
      List.Forall₂ (fun (d : TaskDict) (p : String × Task) =>
        p.1 = d.id ∧ toTask fromIso d = .ok p.2) ds ts →
      ∀ p ∈ ts, ∃ d ∈ ds, p.1 = d.id ∧ toTask fromIso d = .ok p.2 := by
  intro ds ts h
  induction h with
  | nil => intro p hp; cases hp
  | cons hR _ ihr =>
    intro p hp
    rcases List.mem_cons.mp hp with rfl | hp2
    · exact ⟨_, List.mem_cons_self _ _, hR.1, hR.2⟩
    · obtain ⟨d2, hd2, h1, h2⟩ := ihr p hp2
      exact ⟨d2, List.mem_cons_of_mem _ hd2, h1, h2⟩

/-- Summary of a successful normalization under unique input ids: keys and
value ids equal the input ids in order, keys match value ids, and each
entry is the parsed image of an input record. -/
theorem normalize_ok_nodup {fromIso : String → Option DateTime}
    {tasks : List TaskDict} {m : TaskMap}
    (h : normalize_tasks fromIso tasks = .ok m)
    (hnd : (tasks.map (fun d => d.id)).Nodup) :
    m.map (fun p => p.1) = tasks.map (fun d => d.id) ∧
    (m.map (fun p => p.2)).map Task.id = tasks.map (fun d => d.id) ∧
    (∀ p ∈ m, p.2.id = p.1) ∧
    List.Forall₂ (fun (d : TaskDict) (p : String × Task) =>
      p.1 = d.id ∧ toTask fromIso d = .ok p.2) tasks m := by
  obtain ⟨ts, hm, hfa⟩ := normGo_ok tasks [] m h (by intro d _ hc; cases hc) hnd
  rw [List.nil_append] at hm
  subst hm
  refine ⟨forall2_keys hfa, ?_, ?_, hfa⟩
  · rw [List.map_map]
    exact forall2_value_ids hfa
  · intro p hp
    obtain ⟨d2, _, h1, h2⟩ := forall2_mem_right hfa p hp
    rw [h1, (toTask_fields h2).1]

theorem lookup_of_mem_nodup :
    ∀ {m : TaskMap} {k : String} {v : Task},
      (k, v) ∈ m → (m.map (fun p => p.1)).Nodup → m.lookup k = some v := by
  intro m
  induction m with
  | nil => intro k v hmem; cases hmem
  | cons p ps ih =>
    intro k v hmem hnd
    obtain ⟨k0, v0⟩ := p
    rcases List.mem_cons.mp hmem with he | hm2
    · rw [Prod.mk.injEq] at he
      obtain ⟨h1, h2⟩ := he
      subst h1
      subst h2
      rw [List.lookup_cons]
      simp
    · have hk : k ∈ ps.map (fun p => p.1) :=
        List.mem_map.mpr ⟨(k, v), hm2, rfl⟩
      have hnd2 := List.nodup_cons.mp hnd
      rw [List.lookup_cons]
      cases hkk : (k == k0) with
      | true => exact absurd (eq_of_beq hkk ▸ hk) hnd2.1
      | false => exact ih hm2 hnd2.2

/-- Acyclicity of the association map transfers to the plain value list
when keys are unique and match the value ids. -/
theorem vals_acyclic {m : TaskMap}
    (hnd : (m.map (fun p => p.1)).Nodup)
    (hids : ∀ p ∈ m, p.2.id = p.1)
    (hdet : ¬ ∃ a, Relation.TransGen (depEdge m) a a) :
    ∀ a, ¬ Relation.TransGen (listDepEdge (m.map (fun p => p.2))) a a := by
  intro a ha
  refine hdet ⟨a, ha.mono ?_⟩
  intro x y hxy
  obtain ⟨t, htm, hta, hdep⟩ := hxy
  obtain ⟨p, hpm, hpt⟩ := List.mem_map.mp htm
  obtain ⟨k0, t0⟩ := p
  have hkey : k0 = x := by
    have := hids (k0, t0) hpm
    simp only at this hpt
    rw [← hta, ← hpt]
    exact this.symm
  subst hkey
  have ht0 : t0 = t := hpt
  subst ht0
  exact ⟨t0, lookup_of_mem_nodup hpm hnd, hdep⟩

theorem validate_none_deps {t : Task} {ids : List String}
    (h : validate_task t ids = none) : ∀ d ∈ t.dependencies, d ∈ ids := by
  intro d hd
  rw [validate_task] at h
  split at h
  · cases h
  · split at h
    · cases h
    · next hfind =>
      have hp := List.find?_eq_none.mp hfind d hd
      have hc : ids.contains d = true := by simpa using hp
      exact contains_mem hc

/-- C2: on every successful run over a batch with unique ids, the output
ids are a permutation of the input ids: each id occurs exactly once. -/
theorem C2_output_is_permutation :
    ∀ (fromIso : String → Option DateTime) (tasks : List TaskDict)
      (out : List Task),
      (tasks.map (fun t2 => t2.id)).Nodup →
      prioritize_tasks fromIso tasks = .ok out →
      (out.map Task.id).Perm (tasks.map (fun t2 => t2.id)) := by
  intro fromIso tasks out hnd h
  rw [prioritize_tasks] at h
  split at h
  · next hemp =>
    injection h with h2
    subst h2
    have hnil : tasks = [] := List.isEmpty_iff.mp hemp
    subst hnil
    exact List.Perm.refl _
  · split at h
    · cases h
    · next normalized heq =>
      split at h
      · cases h
      · next hval =>
        split at h
        · cases h
        · next hdet =>
          injection h with h2
          subst h2
          obtain ⟨hkeys, hvids, hids, hfa⟩ := normalize_ok_nodup heq hnd
          have hkeysnd : (normalized.map (fun p => p.1)).Nodup := by
            rw [hkeys]
            exact hnd
          have hacyc := vals_acyclic hkeysnd hids (detect_none_acyclic hdet)
          have hvalid : ∀ t ∈ normalized.map (fun p => p.2),
              validate_task t (tasks.map (fun t2 => t2.id)) = none :=
            fun t ht => List.findSome?_eq_none.mp hval t ht
          have hres : ∀ t ∈ normalized.map (fun p => p.2),
              ∀ d ∈ t.dependencies,
              d ∈ ([] : List Task).map Task.id ∨
                d ∈ (normalized.map (fun p => p.2)).map Task.id := by
            intro t ht d hd
            right
            rw [hvids]
            exact validate_none_deps (hvalid t ht) d hd
          have hnodup0 : (([] : List Task).map Task.id ++
              (normalized.map (fun p => p.2)).map Task.id).Nodup := by
            simp only [List.map_nil, List.nil_append]
            rw [hvids]
            exact hnd
          have hperm := schedule_perm (normalized.map (fun p => p.2))
            (normalized.map (fun p => p.2)).length []
            (normalized.map (fun p => p.2)) rfl (fun t ht => ht) hacyc
            hnodup0 hres
          refine hperm.trans ?_
          have hfin : ([] : List Task).map Task.id ++
              (normalized.map (fun p => p.2)).map Task.id =
              tasks.map (fun t2 => t2.id) := by
            simp only [List.map_nil, List.nil_append]
            exact hvids
          rw [hfin]

/-- Witness for C2 on the worked example. -/
theorem C2_output_is_permutation_witness :
    (outEx.map Task.id).Perm (workedExample.map (fun t2 => t2.id)) :=
  C2_output_is_permutation noIso workedExample outEx (by decide) (by rfl)

/-- C3: on the worked example batch of the spec, given in input order
1, 2, 3, 4, 5, the pipeline returns the records in id order 1, 3, 2, 4, 5
(3 before 2 because priority 5 beats 4 once both are unblocked). -/
theorem C3_worked_example :
    (prioritize_tasks noIso workedExample).map (fun l => l.map Task.id) =
      .ok ["1", "3", "2", "4", "5"] := by rfl

theorem schedule_subset :
    ∀ (fuel : Nat) (acc rem : List Task),
      ∀ x ∈ schedule fuel acc rem, x ∈ acc ∨ x ∈ rem := by
  intro fuel
  induction fuel with
  | zero =>
    intro acc rem x hx
    rw [schedule] at hx
    exact Or.inl (List.mem_reverse.mp hx)
  | succ fuel ih =>
    intro acc rem x hx
    rw [schedule] at hx
    split at hx
    · exact Or.inl (List.mem_reverse.mp hx)
    · next t hsel =>
      rcases ih (t :: acc) _ x hx with h1 | h2
      · rcases List.mem_cons.mp h1 with rfl | h3
        · exact Or.inr ((List.mem_filter.mp (selectBest_mem hsel)).1)
        · exact Or.inl h3
      · exact Or.inr ((List.eraseP_sublist rem).subset h2)

theorem dictInsert_mem {k : String} {v : Task} :
    ∀ {l : TaskMap} {p : String × Task},
      p ∈ dictInsert k v l → p ∈ l ∨ p = (k, v) := by
  intro l
  induction l with
  | nil =>
    intro p hp
    rw [dictInsert] at hp
    exact Or.inr (List.mem_singleton.mp hp)
  | cons q qs ih =>
    intro p hp
    obtain ⟨k0, v0⟩ := q
    rw [dictInsert] at hp
    by_cases hbk : (k0 == k) = true
    · rw [if_pos hbk] at hp
      rcases List.mem_cons.mp hp with rfl | h2
      · right
        rw [Prod.mk.injEq]
        exact ⟨eq_of_beq hbk, rfl⟩
      · left
        exact List.mem_cons_of_mem _ h2
    · rw [if_neg hbk] at hp
      rcases List.mem_cons.mp hp with rfl | h2
      · left
        exact List.mem_cons_self _ _
      · rcases ih h2 with h3 | h3
        · left
          exact List.mem_cons_of_mem _ h3
        · right
          exact h3

theorem normGo_entries {fromIso : String → Option DateTime} :
    ∀ (ds : List TaskDict) (acc m : TaskMap),
      normGo fromIso acc ds = .ok m →
      ∀ p ∈ m, p ∈ acc ∨ ∃ d ∈ ds, p.1 = d.id ∧ toTask fromIso d = .ok p.2 := by
  intro ds
  induction ds with
  | nil =>
    intro acc m h p hp
    rw [normGo] at h
    injection h with h2
    subst h2
    exact Or.inl hp
  | cons d ds ih =>
    intro acc m h p hp
    rw [normGo] at h
    split at h
    case h_2 => cases h
    case h_1 t htok =>
      rcases ih _ m h p hp with hacc | ⟨d2, hd2, h1, h2⟩
      · rcases dictInsert_mem hacc with h3 | h3
        · exact Or.inl h3
        · right
          refine ⟨d, List.mem_cons_self _ _, ?_, ?_⟩
          · rw [h3]
          · rw [h3]
            exact htok
      · exact Or.inr ⟨d2, List.mem_cons_of_mem _ hd2, h1, h2⟩

/-- C8: every record of a successful output carries the fields of an input
record with the same id, with the deadline replaced by its parsed image,
also when the input supplied the deadline as an ISO string. -/
theorem C8_output_fields_normalized :
    ∀ (fromIso : String → Option DateTime) (tasks : List TaskDict)
      (out : List Task) (r : Task),
      prioritize_tasks fromIso tasks = .ok out → r ∈ out →
      ∃ d ∈ tasks, d.id = r.id ∧ d.name = r.name ∧
        d.priority = r.priority ∧ d.dependencies = r.dependencies ∧
        d.estimated_hours = r.estimated_hours ∧
        parse_deadline fromIso d.deadline = .ok r.deadline := by
  intro fromIso tasks out r h hr
  rw [prioritize_tasks] at h
  split at h
  · injection h with h2
    subst h2
    cases hr
  · split at h
    · cases h
    · next normalized heq =>
      split at h
      · cases h
      · split at h
        · cases h
        · injection h with h2
          subst h2
          rcases schedule_subset _ [] _ r hr with h0 | hv
          · cases h0
          · obtain ⟨p, hpm, hpr⟩ := List.mem_map.mp hv
            rcases normGo_entries tasks [] normalized heq p hpm with h0 | hx
            · cases h0
            · obtain ⟨d, hd, _, htok⟩ := hx
              rw [hpr] at htok
              obtain ⟨f1, f2, f3, f4, f5, f6⟩ := toTask_fields htok
              exact ⟨d, hd, f1.symm, f2.symm, f3.symm, f4.symm, f5.symm, f6⟩

/-- Concrete ISO parser stub for the witness runs. -/
def demoIso : String → Option DateTime := fun s =>
  if s == "2024-01-15" then some 20240115 else none

/-- A one-record batch whose deadline arrives as an ISO string. -/
def strExample : List TaskDict :=
  [ { id := "1", name := "Task 1", deadline := .str "2024-01-15",
      priority := 3, dependencies := [], estimated_hours := 2 } ]

/-- Witness for C8 on a batch whose deadline is an ISO string. -/
theorem C8_output_fields_normalized_witness :
    ∃ d ∈ strExample, d.id = (mkTask "1" "Task 1" 20240115 3 [] 2).id ∧
      d.name = (mkTask "1" "Task 1" 20240115 3 [] 2).name ∧
      d.priority = (mkTask "1" "Task 1" 20240115 3 [] 2).priority ∧
      d.dependencies = (mkTask "1" "Task 1" 20240115 3 [] 2).dependencies ∧
      d.estimated_hours = (mkTask "1" "Task 1" 20240115 3 [] 2).estimated_hours ∧
      parse_deadline demoIso d.deadline =
        .ok (mkTask "1" "Task 1" 20240115 3 [] 2).deadline :=
  C8_output_fields_normalized demoIso strExample
    [mkTask "1" "Task 1" 20240115 3 [] 2]
    (mkTask "1" "Task 1" 20240115 3 [] 2) (by rfl)
    (List.mem_singleton.mpr rfl)

theorem normGo_total {fromIso : String → Option DateTime} :
    ∀ (ds : List TaskDict) (acc : TaskMap),
      (∀ d ∈ ds, ∃ t, toTask fromIso d = .ok t) →
      ∃ m, normGo fromIso acc ds = .ok m := by
  intro ds
  induction ds with
  | nil => intro acc _; exact ⟨acc, rfl⟩
  | cons d ds ih =>
    intro acc hok
    obtain ⟨t, ht⟩ := hok d (List.mem_cons_self _ _)
    obtain ⟨m, hm⟩ := ih (dictInsert d.id t acc)
      (fun x hx => hok x (List.mem_cons_of_mem _ hx))
    refine ⟨m, ?_⟩
    rw [normGo, ht]
    exact hm

theorem forall2_split {fromIso : String → Option DateTime} :
    ∀ (pre rest : List TaskDict) (ts : TaskMap),
      List.Forall₂ (fun (d : TaskDict) (p : String × Task) =>
        p.1 = d.id ∧ toTask fromIso d = .ok p.2) (pre ++ rest) ts →
      ∃ ts1 ts2, ts = ts1 ++ ts2 ∧
        List.Forall₂ (fun (d : TaskDict) (p : String × Task) =>
          p.1 = d.id ∧ toTask fromIso d = .ok p.2) pre ts1 ∧
        List.Forall₂ (fun (d : TaskDict) (p : String × Task) =>
          p.1 = d.id ∧ toTask fromIso d = .ok p.2) rest ts2 := by
  intro pre
  induction pre with
  | nil =>
    intro rest ts h
    exact ⟨[], ts, rfl, List.Forall₂.nil, h⟩
  | cons x xs ih =>
    intro rest ts h
    rw [List.cons_append] at h
    rcases List.forall₂_cons_left_iff.mp h with ⟨b, u2, hR, h2, rfl⟩
    obtain ⟨ts1, ts2, rfl, hf1, hf2⟩ := ih rest u2 h2
    exact ⟨b :: ts1, ts2, rfl, List.Forall₂.cons hR hf1, hf2⟩

theorem findSome?_first {f : Task → Option PError} :
    ∀ (l1 : List Task) (t : Task) (l2 : List Task) (e : PError),
      (∀ x ∈ l1, f x = none) → f t = some e →
      List.findSome? f (l1 ++ t :: l2) = some e := by
  intro l1
  induction l1 with
  | nil =>
    intro t l2 e _ hft
    rw [List.nil_append, List.findSome?_cons, hft]
  | cons x xs ih =>
    intro t l2 e hnone hft
    rw [List.cons_append, List.findSome?_cons,
      hnone x (List.mem_cons_self _ _)]
    exact ih t l2 e (fun y hy => hnone y (List.mem_cons_of_mem _ hy)) hft

/-- C7: within one task the checks run in the order priority, then
dependencies, then estimated hours, the first failing check winning; across
a batch with unique ids whose deadlines all parse, the pipeline raises the
violation of the first invalid task in batch input order. -/
theorem C7_validation_order :
    (∀ (t : Task) (ids : List String),
      (t.priority < PRIORITY_MIN ∨ t.priority > PRIORITY_MAX) →
      validate_task t ids = some (.invalidPriority (priorityMsg t))) ∧
    (∀ (t : Task) (ids : List String) (d : String),
      ¬(t.priority < PRIORITY_MIN ∨ t.priority > PRIORITY_MAX) →
      t.dependencies.find? (fun d2 => !(ids.contains d2)) = some d →
      validate_task t ids = some (.invalidDependency (depMsg t d))) ∧
    (∀ (fromIso : String → Option DateTime) (pre post : List TaskDict)
      (dd : TaskDict) (e : PError),
      (((pre ++ dd :: post).map (fun x => x.id)).Nodup) →
      (∀ x ∈ pre ++ dd :: post, ∃ tx, toTask fromIso x = .ok tx) →
      (∀ x ∈ pre, ∀ tx, toTask fromIso x = .ok tx →
        validate_task tx ((pre ++ dd :: post).map (fun x => x.id)) = none) →
      (∀ td, toTask fromIso dd = .ok td →
        validate_task td ((pre ++ dd :: post).map (fun x => x.id)) = some e) →
      prioritize_tasks fromIso (pre ++ dd :: post) = .error e) := by
  refine ⟨?_, ?_, ?_⟩
  · intro t ids hp
    rw [validate_task, if_pos hp]
  · intro t ids d hp hfind
    rw [validate_task, if_neg hp]
    simp only [hfind]
  · intro fromIso pre post dd e hnd hall hpre hdd
    have hne : ((pre ++ dd :: post).isEmpty) = false := by
      cases pre with
      | nil => rfl
      | cons a as => rfl
    obtain ⟨m, hm⟩ := normGo_total (pre ++ dd :: post) [] hall
    obtain ⟨ts, hts, hfa⟩ := normGo_ok (pre ++ dd :: post) [] m hm
      (by intro x hx hc; cases hc) hnd
    rw [List.nil_append] at hts
    subst hts
    obtain ⟨ts1, ts2, hts12, hf1, hf2⟩ := forall2_split pre (dd :: post) m hfa
    subst hts12
    rcases List.forall₂_cons_left_iff.mp hf2 with ⟨t2, u2, hR, hf3, hts2⟩
    subst hts2
    have hvals : (ts1 ++ t2 :: u2).map (fun p => p.2) =
        ts1.map (fun p => p.2) ++ (t2.2 :: u2.map (fun p => p.2)) := by
      simp
    have hfs : ((ts1 ++ t2 :: u2).map (fun p => p.2)).findSome?
        (fun t => validate_task t
          ((pre ++ dd :: post).map (fun x => x.id))) = some e := by
      rw [hvals]
      apply findSome?_first
      · intro x hx
        obtain ⟨p, hp, hpx⟩ := List.mem_map.mp hx
        obtain ⟨d2, hd2, _, htok⟩ := forall2_mem_right hf1 p hp
        rw [← hpx]
        exact hpre d2 hd2 p.2 htok
      · exact hdd t2.2 hR.2
    have hnem : ¬((pre ++ dd :: post).isEmpty = true) := by
      rw [hne]
      intro hc
      cases hc
    have hnorm : normalize_tasks fromIso (pre ++ dd :: post) =
        .ok (ts1 ++ t2 :: u2) := hm
    rw [prioritize_tasks, if_neg hnem]
    simp only [hnorm]
    simp only [hfs]

/-- A task dictionary with an out-of-range priority. -/
def badDict : TaskDict :=
  { id := "9", name := "n", deadline := .dt 0, priority := 7,
    dependencies := [], estimated_hours := 2 }

def badTask : Task := mkTask "9" "n" 0 7 [] 2

/-- Witness for C7 at concrete tasks: a task with bad priority, a missing
dependency and negative hours raises the priority error; a task with a
missing dependency and negative hours raises the dependency error; a
one-task batch raises its own first violation. -/
theorem C7_validation_order_witness :
    validate_task (mkTask "9" "n" 0 7 ["zz"] (-1)) ["9"] =
      some (.invalidPriority (priorityMsg (mkTask "9" "n" 0 7 ["zz"] (-1)))) ∧
    validate_task (mkTask "8" "n" 0 3 ["zz"] (-1)) ["8"] =
      some (.invalidDependency (depMsg (mkTask "8" "n" 0 3 ["zz"] (-1)) "zz")) ∧
    prioritize_tasks noIso ([] ++ badDict :: []) =
      .error (.invalidPriority (priorityMsg badTask)) := by
  refine ⟨?_, ?_, ?_⟩
  · exact C7_validation_order.1 _ _ (by decide)
  · exact C7_validation_order.2.1 _ _ "zz" (by decide) (by rfl)
  · refine C7_validation_order.2.2 noIso [] [] badDict _ (by decide)
      ?_ ?_ ?_
    · intro x hx
      have hx2 : x = badDict := by simpa using hx
      subst hx2
      exact ⟨badTask, rfl⟩
    · intro x hx
      exact absurd hx (List.not_mem_nil x)
    · intro td htd
      injection htd with h2
      subst h2
      decide

end Prioritizer
